import Mathlib

/-!
Shallow embedding of the repository's two scripts:

* `scripts/update-language-badge.mjs` — aggregates per-repository language
  byte sizes returned by a GraphQL query and renders an SVG bar badge.
* `scripts/update-recent-prs.mjs` — two reporters (recent pull requests,
  recent commits) that scan a paginated public event feed, build bounded
  deduplicated display-record lists, and splice rendered markup into a
  README between marker comments.

Network responses are modelled as explicit inputs (pages of already-decoded
event objects, a stream of commit-detail responses).  JavaScript `Date`
parsing and `toISOString` are host behaviour: an event carries both its raw
timestamp string and the parsed millisecond value (`none` when the parse
yields `NaN`), plus the ISO rendering where the script uses it.
-/

/-- JavaScript truthiness of an optional string: `undefined`/`null` and the
empty string are falsy, every other string is truthy. -/
def jsTruthy : Option String → Bool
  | none => false
  | some s => !s.isEmpty

/-- `s.split('\n')[0]`: the text before the first newline. -/
def firstLine (s : String) : String := (s.splitOn "\n").headD s

/-- `a || b` on optional strings: keep `a` when truthy, otherwise `b`. -/
def jsOr (a b : Option String) : Option String :=
  if jsTruthy a then a else b

section LanguageBadge

/-- One element of `repo.languages.edges` (the `node` fields flattened;
a missing `node` yields `none` in both projections). -/
structure LangEdge where
  size : Option Nat
  name : Option String
  color : Option String
deriving Repr, DecidableEq

/-- One element of `repositoriesContributedTo.nodes`. -/
structure LangRepo where
  edges : Option (List LangEdge)
deriving Repr, DecidableEq

/-- The per-language accumulator value stored in `languageMap`. -/
structure LangInfo where
  size : Nat
  color : String
deriving Repr, DecidableEq

/-- `languageMap.has(name)` on the insertion-ordered association list. -/
def mapHas (m : List (String × LangInfo)) (k : String) : Bool :=
  m.any (fun p => p.1 == k)

/-- `languageMap.get(name).size += size` (and the dead color refresh from the
source, kept verbatim): update the entry for `k` in place, preserving
insertion order. -/
def mapBump (m : List (String × LangInfo)) (k : String) (sz : Nat) (c : String) :
    List (String × LangInfo) :=
  m.map (fun p =>
    if p.1 == k then
      (p.1, { size := p.2.size + sz
              color := if p.2.color.isEmpty && !c.isEmpty then c else p.2.color })
    else p)

/-- The edge loop body of `fetchLanguages`: `size = edge?.size ?? 0`,
skip when `!name || !size`, default color, insert-then-accumulate. -/
def accumEdge (m : List (String × LangInfo)) (edge : LangEdge) :
    List (String × LangInfo) :=
  let size := edge.size.getD 0
  match edge.name with
  | none => m
  | some name =>
    if name.isEmpty || size == 0 then m
    else
      let color := match edge.color with
        | none => "#58a6ff"
        | some c => if c.isEmpty then "#58a6ff" else c
      let m1 := if mapHas m name then m else m ++ [(name, { size := 0, color })]
      mapBump m1 name size color

/-- The repository loop of `fetchLanguages`, producing the insertion-ordered
`languageMap` (a JavaScript `Map` preserves insertion order). -/
def fetchLanguagesMap (repos : List LangRepo) : List (String × LangInfo) :=
  repos.foldl (fun m repo =>
    match repo.edges with
    | none => m
    | some edges => edges.foldl accumEdge m) []

/-- An entry of the `entries` array in `buildSvg`. -/
structure LangEntry where
  name : String
  size : Nat
  color : String
deriving Repr, DecidableEq

/-- One step of a stable descending insertion sort: `a` moves ahead only of
strictly smaller entries, so equal sizes keep their encounter order. -/
def insertDesc (a : LangEntry) : List LangEntry → List LangEntry
  | [] => [a]
  | b :: l => if b.size < a.size then a :: b :: l else b :: insertDesc a l

/-- Stable descending sort by size.  `Array.prototype.sort` with comparator
`(a, b) => b.size - a.size` is required to be stable, and the stable sorted
rearrangement is unique, so this insertion sort computes the same list. -/
def sortBySizeDesc (l : List LangEntry) : List LangEntry :=
  l.foldl (fun acc a => insertDesc a acc) []

/-- `Array.from(languageMap.entries()).map(...).sort((a,b) => b.size - a.size)
.slice(0, topLanguagesLimit)`: a stable descending sort by size followed by
truncation. -/
def buildSvgEntries (topLanguagesLimit : Nat) (m : List (String × LangInfo)) :
    List LangEntry :=
  (sortBySizeDesc (m.map (fun p =>
    ({ name := p.1, size := p.2.size, color := p.2.color } : LangEntry)))).take
    topLanguagesLimit

/-- `entries.reduce((sum, lang) => sum + lang.size, 0)`. -/
def entriesTotal (entries : List LangEntry) : Nat :=
  entries.foldl (fun sum lang => sum + lang.size) 0

/-- `Math.max(1, Math.round((entry.size / total) * 100))`, in exact rational
arithmetic: round-half-up of `100 * size / total` is
`(200 * size + total) / (2 * total)` in integer division. -/
def jsPercent (size total : Nat) : Nat :=
  max 1 ((200 * size + total) / (2 * total))

/-- The percentage labels of the rendered rows of `buildSvg`, one per
displayed entry, each computed against the displayed total. -/
def percentLabels (topLanguagesLimit : Nat) (m : List (String × LangInfo)) :
    List Nat :=
  let entries := buildSvgEntries topLanguagesLimit m
  let total := entriesTotal entries
  entries.map (fun e => jsPercent e.size total)

end LanguageBadge

section RecentPRs

/-- The `payload.pull_request` object, with the optional chains
`pr.head?.repo?.full_name`, `pr.base?.repo?.full_name` and
`pr.base?.repo?.html_url` flattened into optional projections. -/
structure PullRequest where
  html_url : Option String
  title : Option String
  state : String
  draft : Bool
  merged_at : Option String
  closed_at : Option String
  created_at : Option String
  head_repo_full_name : Option String
  base_repo_full_name : Option String
  base_repo_html_url : Option String
  url : Option String
deriving Repr, DecidableEq

/-- `formatStatus` of `update-recent-prs.mjs`. -/
def formatStatus (pr : PullRequest) : String :=
  if jsTruthy pr.merged_at then "Merged"
  else if pr.state == "closed" then "Closed"
  else if pr.draft then "Draft"
  else "Open"

/-- One entry of the public event feed as the PR reporter reads it.
`created_at_ms` is the host's `new Date(event.created_at).getTime()`
(`none` when the parse yields `NaN`); `created_at` is the raw string the
script also uses verbatim as a date fallback. -/
structure PREvent where
  typ : String
  created_at : String
  created_at_ms : Option Int
  repo_name : Option String
  pull_request : Option PullRequest
deriving Repr, DecidableEq

/-- A PR display record as pushed by `fetchRecentPRs`. -/
structure PRRecord where
  repoName : String
  repoUrl : String
  title : String
  url : String
  status : String
  date : String
deriving Repr, DecidableEq

/-- `o?.split(sep)[i]` (optional chaining short-circuits the indexing). -/
def jsSplitIdx (o : Option String) (sep : String) (i : Nat) : Option String :=
  o.bind (fun s => (s.splitOn sep).get? i)

/-- `a || dflt` collapsing to a plain string. -/
def jsOrD (a : Option String) (dflt : String) : String :=
  if jsTruthy a then a.getD "" else dflt

/-- The `repoName` fallback chain of the pushed record. -/
def prRepoName (e : PREvent) (pr : PullRequest) : String :=
  jsOrD (jsOr pr.head_repo_full_name (jsOr e.repo_name
    (jsOr pr.base_repo_full_name (jsSplitIdx pr.url "/repos/" 1)))) "Unknown"

/-- The `repoUrl` fallback chain of the pushed record. -/
def prRepoUrl (e : PREvent) (pr : PullRequest) : String :=
  if jsTruthy pr.base_repo_html_url then pr.base_repo_html_url.getD ""
  else if jsTruthy e.repo_name then "https://github.com/" ++ e.repo_name.getD ""
  else ((pr.html_url.getD "").splitOn "/pull/").headD ""

/-- The `date` fallback chain of the pushed record. -/
def prDate (e : PREvent) (pr : PullRequest) : String :=
  jsOrD (jsOr pr.merged_at (jsOr pr.closed_at pr.created_at)) e.created_at

/-- The `for (const event of events)` loop body of `fetchRecentPRs` over one
page: skips non-PR events, unparseable or stale timestamps, payloads without
a truthy `html_url`, drafts (unless configured), and already-seen URLs;
otherwise pushes a record and returns early (third component `true`) once
the pushed list reaches the limit. -/
def processPREvents (since : Int) (prLimit : Nat) (includeDrafts : Bool) :
    List PREvent → List PRRecord → List String →
    List PRRecord × List String × Bool
  | [], prs, seen => (prs, seen, false)
  | e :: rest, prs, seen =>
    if e.typ != "PullRequestEvent" then
      processPREvents since prLimit includeDrafts rest prs seen
    else
      match e.created_at_ms with
      | none => processPREvents since prLimit includeDrafts rest prs seen
      | some d =>
        if d < since then processPREvents since prLimit includeDrafts rest prs seen
        else
          match e.pull_request with
          | none => processPREvents since prLimit includeDrafts rest prs seen
          | some pr =>
            if !jsTruthy pr.html_url then
              processPREvents since prLimit includeDrafts rest prs seen
            else if !includeDrafts && pr.draft then
              processPREvents since prLimit includeDrafts rest prs seen
            else
              let key := pr.html_url.getD ""
              if seen.contains key then
                processPREvents since prLimit includeDrafts rest prs seen
              else
                let record : PRRecord :=
                  { repoName := prRepoName e pr
                    repoUrl := prRepoUrl e pr
                    title := jsOrD pr.title "Pull request"
                    url := key
                    status := formatStatus pr
                    date := prDate e pr }
                let prs1 := prs ++ [record]
                if prLimit ≤ prs1.length then (prs1, key :: seen, true)
                else processPREvents since prLimit includeDrafts rest prs1 (key :: seen)

/-- The page loop of `fetchRecentPRs`: at most `eventMaxPages` requests,
break on an empty page, stop early when the limit was reached mid-page. -/
def fetchRecentPRsGo (since : Int) (prLimit : Nat) (includeDrafts : Bool) :
    Nat → List (List PREvent) → List PRRecord → List String → List PRRecord
  | 0, _, prs, _ => prs
  | _ + 1, [], prs, _ => prs
  | n + 1, page :: rest, prs, seen =>
    if page.isEmpty then prs
    else
      match processPREvents since prLimit includeDrafts page prs seen with
      | (prs1, seen1, stop) =>
        if stop then prs1
        else fetchRecentPRsGo since prLimit includeDrafts n rest prs1 seen1

/-- `fetchRecentPRs`, with the successive event pages the server would
return supplied as input. -/
def fetchRecentPRs (since : Int) (prLimit : Nat) (includeDrafts : Bool)
    (eventMaxPages : Nat) (pages : List (List PREvent)) : List PRRecord :=
  fetchRecentPRsGo since prLimit includeDrafts eventMaxPages pages [] []

end RecentPRs

section RecentCommits

/-- One element of `event.payload.commits`. -/
structure CommitEntry where
  sha : Option String
  message : Option String
deriving Repr, DecidableEq

/-- One entry of the public event feed as the commit reporter reads it.
`created_at_iso` is the host's `eventDate.toISOString()` for the parsed
timestamp. -/
structure PushEvent where
  typ : String
  created_at_ms : Option Int
  created_at_iso : String
  repo_name : Option String
  payload_commits : Option (List CommitEntry)
  payload_head : Option String
deriving Repr, DecidableEq

/-- The decoded body of the single-commit detail endpoint, with the optional
chains `data.commit?.message`, `data.commit?.author?.date` and
`data.commit?.committer?.date` flattened. -/
structure CommitData where
  commit_message : Option String
  html_url : Option String
  author_date : Option String
  committer_date : Option String
deriving Repr, DecidableEq

/-- The `info` object cached by `fetchCommitDetails`. -/
structure CommitInfo where
  message : String
  url : Option String
  date : Option String
deriving Repr, DecidableEq

/-- The `info` construction of `fetchCommitDetails`. -/
def mkCommitInfo (data : CommitData) : CommitInfo :=
  { message :=
      match data.commit_message with
      | none => "Update"
      | some m => if (firstLine m).isEmpty then "Update" else firstLine m
    url := data.html_url
    date :=
      if jsTruthy data.author_date then data.author_date
      else if jsTruthy data.committer_date then data.committer_date
      else none }

/-- `fetchCommitDetails`: consult the run-scoped cache first; otherwise
consume the next network response.  A non-success status or a thrown fetch
error (`none` in the response stream) yields `none` and caches nothing; a
success is cached under `repoName@sha`. -/
def fetchCommitDetails (cache : List (String × CommitInfo))
    (responses : List (Option CommitData)) (repoName sha : String) :
    Option CommitInfo × List (String × CommitInfo) × List (Option CommitData) :=
  let cacheKey := repoName ++ "@" ++ sha
  match List.lookup cacheKey cache with
  | some info => (some info, cache, responses)
  | none =>
    match responses with
    | [] => (none, cache, [])
    | none :: rest => (none, cache, rest)
    | some data :: rest =>
      let info := mkCommitInfo data
      (some info, cache ++ [(cacheKey, info)], rest)

/-- A commit display record as pushed by `fetchRecentCommits`.  The source
keeps the full SHA only in the `seen` set and in derived fields; the `sha`
field here records that deduplication identity explicitly. -/
structure CommitRecord where
  repoName : String
  repoUrl : String
  message : String
  url : String
  oid : String
  occurredAt : String
  sha : String
deriving Repr, DecidableEq

/-- The inline-commit loop of `fetchRecentCommits` over
`event.payload.commits`: skip falsy or already-seen SHAs, push a record,
return early (third component `true`) at the limit. -/
def processInlineCommits (commitLimit : Nat) (repoName repoUrl occurredAt : String) :
    List CommitEntry → List CommitRecord → List String →
    List CommitRecord × List String × Bool
  | [], commits, seen => (commits, seen, false)
  | c :: rest, commits, seen =>
    if !jsTruthy c.sha || seen.contains (c.sha.getD "") then
      processInlineCommits commitLimit repoName repoUrl occurredAt rest commits seen
    else
      let sha := c.sha.getD ""
      let record : CommitRecord :=
        { repoName := repoName
          repoUrl := repoUrl
          message := firstLine (jsOrD c.message "Update")
          url := "https://github.com/" ++ repoName ++ "/commit/" ++ sha
          oid := sha.take 7
          occurredAt := occurredAt
          sha := sha }
      let commits1 := commits ++ [record]
      if commitLimit ≤ commits1.length then (commits1, sha :: seen, true)
      else processInlineCommits commitLimit repoName repoUrl occurredAt rest commits1 (sha :: seen)

/-- The `for (const event of events)` loop body of `fetchRecentCommits` over
one page: skips non-push events, unparseable or stale timestamps, and events
without a truthy repo name; takes the inline-commit path when the payload
carries a non-empty commit list, otherwise the head-reference path with its
cached detail lookup (a failed lookup skips the event and touches neither
the cache nor the seen set). -/
def processPushEvents (since : Int) (commitLimit : Nat) :
    List PushEvent → List CommitRecord → List String →
    List (String × CommitInfo) → List (Option CommitData) →
    List CommitRecord × List String ×
      List (String × CommitInfo) × List (Option CommitData) × Bool
  | [], commits, seen, cache, responses => (commits, seen, cache, responses, false)
  | e :: rest, commits, seen, cache, responses =>
    if e.typ != "PushEvent" then
      processPushEvents since commitLimit rest commits seen cache responses
    else
      match e.created_at_ms with
      | none => processPushEvents since commitLimit rest commits seen cache responses
      | some d =>
        if d < since then
          processPushEvents since commitLimit rest commits seen cache responses
        else if !jsTruthy e.repo_name then
          processPushEvents since commitLimit rest commits seen cache responses
        else
          let repoName := e.repo_name.getD ""
          let repoUrl := "https://github.com/" ++ repoName
          match e.payload_commits with
          | some (c :: cs) =>
            (match processInlineCommits commitLimit repoName repoUrl
                e.created_at_iso (c :: cs) commits seen with
             | (commits1, seen1, stop) =>
               if stop then (commits1, seen1, cache, responses, true)
               else processPushEvents since commitLimit rest commits1 seen1 cache responses)
          | _ =>
            match e.payload_head with
            | none => processPushEvents since commitLimit rest commits seen cache responses
            | some h =>
              if h.isEmpty || seen.contains h then
                processPushEvents since commitLimit rest commits seen cache responses
              else
                match fetchCommitDetails cache responses repoName h with
                | (none, cache1, responses1) =>
                  processPushEvents since commitLimit rest commits seen cache1 responses1
                | (some info, cache1, responses1) =>
                  let record : CommitRecord :=
                    { repoName := repoName
                      repoUrl := repoUrl
                      message := info.message
                      url := jsOrD info.url
                        ("https://github.com/" ++ repoName ++ "/commit/" ++ h)
                      oid := h.take 7
                      occurredAt := jsOrD info.date e.created_at_iso
                      sha := h }
                  let commits1 := commits ++ [record]
                  if commitLimit ≤ commits1.length then
                    (commits1, h :: seen, cache1, responses1, true)
                  else
                    processPushEvents since commitLimit rest commits1 (h :: seen) cache1 responses1

/-- The page loop of `fetchRecentCommits`. -/
def fetchRecentCommitsGo (since : Int) (commitLimit : Nat) :
    Nat → List (List PushEvent) → List CommitRecord → List String →
    List (String × CommitInfo) → List (Option CommitData) → List CommitRecord
  | 0, _, commits, _, _, _ => commits
  | _ + 1, [], commits, _, _, _ => commits
  | n + 1, page :: rest, commits, seen, cache, responses =>
    if page.isEmpty then commits
    else
      match processPushEvents since commitLimit page commits seen cache responses with
      | (commits1, seen1, cache1, responses1, stop) =>
        if stop then commits1
        else fetchRecentCommitsGo since commitLimit n rest commits1 seen1 cache1 responses1

/-- `fetchRecentCommits`, with the event pages and the commit-detail
response stream supplied as input. -/
def fetchRecentCommits (since : Int) (commitLimit : Nat) (eventMaxPages : Nat)
    (pages : List (List PushEvent)) (responses : List (Option CommitData)) :
    List CommitRecord :=
  fetchRecentCommitsGo since commitLimit eventMaxPages pages [] [] [] responses

end RecentCommits

section Splice

/-- Decidable prefix test on character lists. -/
def startsWithL : List Char → List Char → Bool
  | [], _ => true
  | _ :: _, [] => false
  | a :: p, b :: l => a == b && startsWithL p l

/-- `content.indexOf(pat)` on character lists: index of the first
occurrence, `none` when absent (the source's `-1`). -/
def firstIdx (p : List Char) : List Char → Option Nat
  | [] => if startsWithL p [] then some 0 else none
  | c :: t => if startsWithL p (c :: t) then some 0 else (firstIdx p t).map (· + 1)

/-- Substring test derived from `firstIdx`. -/
def containsSub (p l : List Char) : Bool := (firstIdx p l).isSome

def startTagPR : List Char := "<!-- START_RECENT_PRS -->".toList

def endTagPR : List Char := "<!-- END_RECENT_PRS -->".toList

def startTagCommits : List Char := "<!-- START_RECENT_COMMITS -->".toList

def endTagCommits : List Char := "<!-- END_RECENT_COMMITS -->".toList

/-- `updateReadme` without the file system: locate both markers (error when
either is absent or they are out of order), rebuild the document as
`before + "\n" + markup + "\n" + after`, and report whether a write would
happen (`false` exactly on the no-op short-circuit). -/
def spliceUpdate (startTag endTag : List Char) (errMsg : String)
    (content markup : List Char) : Except String (List Char × Bool) :=
  match firstIdx startTag content, firstIdx endTag content with
  | some s, some e =>
    if e ≤ s then .error errMsg
    else
      let before := content.take (s + startTag.length)
      let after := content.drop e
      let next := before ++ '\n' :: (markup ++ '\n' :: after)
      if next == content then .ok (content, false) else .ok (next, true)
  | _, _ => .error errMsg

/-- `updateReadme` of the PR reporter. -/
def updateReadmePR (content markup : List Char) : Except String (List Char × Bool) :=
  spliceUpdate startTagPR endTagPR "Recent PR markers not found in README." content markup

/-- `updateReadme` of the commit reporter. -/
def updateReadmeCommits (content markup : List Char) : Except String (List Char × Bool) :=
  spliceUpdate startTagCommits endTagCommits "Recent commit markers not found in README."
    content markup

end Splice

/-- A concrete push event whose payload carries only a head reference
(no inline commit list), used to exercise the failed-lookup path. -/
def c10Event : PushEvent :=
  { typ := "PushEvent"
    created_at_ms := some 5
    created_at_iso := "2024-01-01T00:00:00.000Z"
    repo_name := some "o/r"
    payload_commits := none
    payload_head := some "abc1234def0" }

/-- A concrete successful commit-detail response body for `c10Event`. -/
def c10Data : CommitData :=
  { commit_message := some "fix parser\nlong body"
    html_url := some "https://github.com/o/r/commit/abc1234def0"
    author_date := some "2024-01-01T00:00:00Z"
    committer_date := none }

lemma processPR_length (since : Int) (prLimit : Nat) (includeDrafts : Bool) :
    ∀ (l : List PREvent) (prs : List PRRecord) (seen : List String),
      prs.length < prLimit →
      (processPREvents since prLimit includeDrafts l prs seen).1.length ≤ prLimit ∧
      ((processPREvents since prLimit includeDrafts l prs seen).2.2 = false →
        (processPREvents since prLimit includeDrafts l prs seen).1.length < prLimit) := by
  intro l
  induction l with
  | nil => intro prs seen h; simp [processPREvents]; omega
  | cons e rest ih =>
    intro prs seen h
    simp only [processPREvents]
    repeat' split
    all_goals try exact ih _ _ h
    · exact ⟨by simp; omega, by simp⟩
    · exact ih _ _ (by simp only [List.length_append, List.length_cons, List.length_nil] at *; omega)

lemma processInline_length (cLimit : Nat) (repoName repoUrl occurredAt : String) :
    ∀ (l : List CommitEntry) (commits : List CommitRecord) (seen : List String),
      commits.length < cLimit →
      (processInlineCommits cLimit repoName repoUrl occurredAt l commits seen).1.length ≤ cLimit ∧
      ((processInlineCommits cLimit repoName repoUrl occurredAt l commits seen).2.2 = false →
        (processInlineCommits cLimit repoName repoUrl occurredAt l commits seen).1.length < cLimit) := by
  intro l
  induction l with
  | nil => intro commits seen h; simp [processInlineCommits]; omega
  | cons c rest ih =>
    intro commits seen h
    simp only [processInlineCommits]
    repeat' split
    all_goals try exact ih _ _ h
    · exact ⟨by simp; omega, by simp⟩
    · exact ih _ _ (by simp only [List.length_append, List.length_cons, List.length_nil] at *; omega)

lemma processPush_length (since : Int) (cLimit : Nat) :
    ∀ (l : List PushEvent) (commits : List CommitRecord) (seen : List String)
      (cache : List (String × CommitInfo)) (responses : List (Option CommitData)),
      commits.length < cLimit →
      (processPushEvents since cLimit l commits seen cache responses).1.length ≤ cLimit ∧
      ((processPushEvents since cLimit l commits seen cache responses).2.2.2.2 = false →
        (processPushEvents since cLimit l commits seen cache responses).1.length < cLimit) := by
  intro l
  induction l with
  | nil => intro commits seen cache responses h; simp [processPushEvents]; omega
  | cons e rest ih =>
    intro commits seen cache responses h
    simp only [processPushEvents]
    repeat' split
    all_goals try exact ih _ _ _ _ h
    · exact ⟨(processInline_length _ _ _ _ _ _ _ h).1, by simp⟩
    · rename_i hstop
      exact ih _ _ _ _ ((processInline_length _ _ _ _ _ _ _ h).2 (by simpa using hstop))
    · exact ⟨by simp; omega, by simp⟩
    · exact ih _ _ _ _ (by simp only [List.length_append, List.length_cons, List.length_nil] at *; omega)

lemma fetchPRGo_length (since : Int) (prLimit : Nat) (includeDrafts : Bool) :
    ∀ (fuel : Nat) (pages : List (List PREvent)) (prs : List PRRecord) (seen : List String),
      prs.length < prLimit →
      (fetchRecentPRsGo since prLimit includeDrafts fuel pages prs seen).length ≤ prLimit := by
  intro fuel
  induction fuel with
  | zero => intro pages prs seen h; simp only [fetchRecentPRsGo]; omega
  | succ n ih =>
    intro pages prs seen h
    cases pages with
    | nil => simp only [fetchRecentPRsGo]; omega
    | cons page rest =>
      simp only [fetchRecentPRsGo]
      split
      · omega
      · split
        · exact (processPR_length since prLimit includeDrafts page prs seen h).1
        · rename_i hstop
          exact ih rest _ _
            ((processPR_length since prLimit includeDrafts page prs seen h).2 (by simpa using hstop))

lemma fetchCommitsGo_length (since : Int) (cLimit : Nat) :
    ∀ (fuel : Nat) (pages : List (List PushEvent)) (commits : List CommitRecord)
      (seen : List String) (cache : List (String × CommitInfo))
      (responses : List (Option CommitData)),
      commits.length < cLimit →
      (fetchRecentCommitsGo since cLimit fuel pages commits seen cache responses).length ≤ cLimit := by
  intro fuel
  induction fuel with
  | zero => intro pages commits seen cache responses h; simp only [fetchRecentCommitsGo]; omega
  | succ n ih =>
    intro pages commits seen cache responses h
    cases pages with
    | nil => simp only [fetchRecentCommitsGo]; omega
    | cons page rest =>
      simp only [fetchRecentCommitsGo]
      split
      · omega
      · split
        · exact (processPush_length since cLimit page commits seen cache responses h).1
        · rename_i hstop
          exact ih rest _ _ _ _
            ((processPush_length since cLimit page commits seen cache responses h).2 (by simpa using hstop))

/-- C4: the claim as stated is false on the code: with a configured limit of
0, one qualifying event still yields one record, because the limit check
runs only after the push. -/
theorem C4_counterexample :
    ¬ ((fetchRecentPRs 0 0 false 1
        [[⟨"PullRequestEvent", "2024-01-01T00:00:00Z", some 5, some "o/r",
           some ⟨some "https://github.com/o/r/pull/1", some "t", "open", false,
             none, none, none, some "o/r", none, none, none⟩⟩]]).length ≤ 0) := by
  decide

/-- C4 (amended): for every positive configured record limit, neither the PR
builder nor the commit builder ever produces more records than the limit,
including when the limit is reached mid-page. -/
theorem C4_limit (since : Int) (prLimit : Nat) (includeDrafts : Bool)
    (eventMaxPages : Nat) (pages : List (List PREvent))
    (cSince : Int) (commitLimit : Nat) (cMaxPages : Nat)
    (cPages : List (List PushEvent)) (responses : List (Option CommitData))
    (hp : 0 < prLimit) (hc : 0 < commitLimit) :
    (fetchRecentPRs since prLimit includeDrafts eventMaxPages pages).length ≤ prLimit ∧
    (fetchRecentCommits cSince commitLimit cMaxPages cPages responses).length ≤ commitLimit :=
  ⟨fetchPRGo_length since prLimit includeDrafts eventMaxPages pages [] [] (by simpa using hp),
   fetchCommitsGo_length cSince commitLimit cMaxPages cPages [] [] [] responses (by simpa using hc)⟩

/-- C4 witness: both builders on an empty first page stay within limit 3. -/
theorem C4_limit_witness :
    (fetchRecentPRs 0 3 false 1 [[]]).length ≤ 3 ∧
    (fetchRecentCommits 0 3 1 [[]] []).length ≤ 3 :=
  C4_limit 0 3 false 1 [[]] 0 3 1 [[]] [] (by decide) (by decide)

lemma prKeysInvStep (prs : List PRRecord) (seen : List String) (r : PRRecord)
    (h1 : (prs.map PRRecord.url).Nodup)
    (h2 : ∀ k ∈ prs.map PRRecord.url, k ∈ seen)
    (hr : r.url ∉ seen) :
    ((prs ++ [r]).map PRRecord.url).Nodup ∧
    (∀ k ∈ (prs ++ [r]).map PRRecord.url, k ∈ r.url :: seen) := by
  constructor
  · rw [List.map_append]
    refine List.Nodup.append h1 (by simp) ?_
    intro a ha hb
    simp only [List.map_cons, List.map_nil, List.mem_singleton] at hb
    subst hb
    exact hr (h2 _ ha)
  · intro k hk
    rw [List.map_append] at hk
    rcases List.mem_append.mp hk with hk | hk
    · exact List.mem_cons_of_mem _ (h2 k hk)
    · simp only [List.map_cons, List.map_nil, List.mem_singleton] at hk
      subst hk
      exact List.mem_cons_self _ _

lemma processPR_nodup (since : Int) (prLimit : Nat) (includeDrafts : Bool) :
    ∀ (l : List PREvent) (prs : List PRRecord) (seen : List String),
      (prs.map PRRecord.url).Nodup →
      (∀ k ∈ prs.map PRRecord.url, k ∈ seen) →
      ((processPREvents since prLimit includeDrafts l prs seen).1.map PRRecord.url).Nodup ∧
      (∀ k ∈ (processPREvents since prLimit includeDrafts l prs seen).1.map PRRecord.url,
        k ∈ (processPREvents since prLimit includeDrafts l prs seen).2.1) := by
  intro l
  induction l with
  | nil => intro prs seen h1 h2; exact ⟨h1, h2⟩
  | cons e rest ih =>
    intro prs seen h1 h2
    simp only [processPREvents]
    repeat' split
    all_goals try exact ih _ _ h1 h2
    · rename_i hnotseen hlim
      refine prKeysInvStep prs seen _ h1 h2 ?_
      intro hm
      exact hnotseen (by simpa using hm)
    · rename_i hnotseen hlim
      refine ih _ _ ?_ ?_
      · exact (prKeysInvStep prs seen _ h1 h2 (fun hm => hnotseen (by simpa using hm))).1
      · exact (prKeysInvStep prs seen _ h1 h2 (fun hm => hnotseen (by simpa using hm))).2

lemma commitKeysInvStep (commits : List CommitRecord) (seen : List String) (r : CommitRecord)
    (h1 : (commits.map CommitRecord.sha).Nodup)
    (h2 : ∀ k ∈ commits.map CommitRecord.sha, k ∈ seen)
    (hr : r.sha ∉ seen) :
    ((commits ++ [r]).map CommitRecord.sha).Nodup ∧
    (∀ k ∈ (commits ++ [r]).map CommitRecord.sha, k ∈ r.sha :: seen) := by
  constructor
  · rw [List.map_append]
    refine List.Nodup.append h1 (by simp) ?_
    intro a ha hb
    simp only [List.map_cons, List.map_nil, List.mem_singleton] at hb
    subst hb
    exact hr (h2 _ ha)
  · intro k hk
    rw [List.map_append] at hk
    rcases List.mem_append.mp hk with hk | hk
    · exact List.mem_cons_of_mem _ (h2 k hk)
    · simp only [List.map_cons, List.map_nil, List.mem_singleton] at hk
      subst hk
      exact List.mem_cons_self _ _

lemma processInline_nodup (cLimit : Nat) (repoName repoUrl occurredAt : String) :
    ∀ (l : List CommitEntry) (commits : List CommitRecord) (seen : List String),
      (commits.map CommitRecord.sha).Nodup →
      (∀ k ∈ commits.map CommitRecord.sha, k ∈ seen) →
      ((processInlineCommits cLimit repoName repoUrl occurredAt l commits seen).1.map
        CommitRecord.sha).Nodup ∧
      (∀ k ∈ (processInlineCommits cLimit repoName repoUrl occurredAt l commits seen).1.map
        CommitRecord.sha,
        k ∈ (processInlineCommits cLimit repoName repoUrl occurredAt l commits seen).2.1) := by
  intro l
  induction l with
  | nil => intro commits seen h1 h2; exact ⟨h1, h2⟩
  | cons c rest ih =>
    intro commits seen h1 h2
    simp only [processInlineCommits]
    repeat' split
    all_goals try exact ih _ _ h1 h2
    · rename_i hcond hlim
      refine commitKeysInvStep commits seen _ h1 h2 ?_
      intro hm
      exact hcond (by simp only [Bool.or_eq_true]; exact Or.inr (by simpa using hm))
    · rename_i hcond hlim
      refine ih _ _ ?_ ?_
      · exact (commitKeysInvStep commits seen _ h1 h2
          (fun hm => hcond (by simp only [Bool.or_eq_true]; exact Or.inr (by simpa using hm)))).1
      · exact (commitKeysInvStep commits seen _ h1 h2
          (fun hm => hcond (by simp only [Bool.or_eq_true]; exact Or.inr (by simpa using hm)))).2

lemma processPush_nodup (since : Int) (cLimit : Nat) :
    ∀ (l : List PushEvent) (commits : List CommitRecord) (seen : List String)
      (cache : List (String × CommitInfo)) (responses : List (Option CommitData)),
      (commits.map CommitRecord.sha).Nodup →
      (∀ k ∈ commits.map CommitRecord.sha, k ∈ seen) →
      ((processPushEvents since cLimit l commits seen cache responses).1.map
        CommitRecord.sha).Nodup ∧
      (∀ k ∈ (processPushEvents since cLimit l commits seen cache responses).1.map
        CommitRecord.sha,
        k ∈ (processPushEvents since cLimit l commits seen cache responses).2.1) := by
  intro l
  induction l with
  | nil => intro commits seen cache responses h1 h2; exact ⟨h1, h2⟩
  | cons e rest ih =>
    intro commits seen cache responses h1 h2
    simp only [processPushEvents]
    repeat' split
    all_goals try exact ih _ _ _ _ h1 h2
    · exact processInline_nodup cLimit _ _ _ _ _ _ h1 h2
    · exact ih _ _ _ _ (processInline_nodup cLimit _ _ _ _ _ _ h1 h2).1
        (processInline_nodup cLimit _ _ _ _ _ _ h1 h2).2
    · rename_i hcond x0 info cache1 responses1 heq hlim
      refine commitKeysInvStep commits seen _ h1 h2 ?_
      intro hm
      exact hcond (by simp only [Bool.or_eq_true]; exact Or.inr (by simpa using hm))
    · rename_i hcond x0 info cache1 responses1 heq hlim
      refine ih _ _ _ _ ?_ ?_
      · exact (commitKeysInvStep commits seen _ h1 h2 (fun hm =>
          hcond (by simp only [Bool.or_eq_true]; exact Or.inr (by simpa using hm)))).1
      · exact (commitKeysInvStep commits seen _ h1 h2 (fun hm =>
          hcond (by simp only [Bool.or_eq_true]; exact Or.inr (by simpa using hm)))).2

lemma fetchPRGo_nodup (since : Int) (prLimit : Nat) (includeDrafts : Bool) :
    ∀ (fuel : Nat) (pages : List (List PREvent)) (prs : List PRRecord) (seen : List String),
      (prs.map PRRecord.url).Nodup →
      (∀ k ∈ prs.map PRRecord.url, k ∈ seen) →
      ((fetchRecentPRsGo since prLimit includeDrafts fuel pages prs seen).map PRRecord.url).Nodup := by
  intro fuel
  induction fuel with
  | zero => intro pages prs seen h1 h2; exact h1
  | succ n ih =>
    intro pages prs seen h1 h2
    cases pages with
    | nil => exact h1
    | cons page rest =>
      simp only [fetchRecentPRsGo]
      split
      · exact h1
      · split
        · exact (processPR_nodup since prLimit includeDrafts page prs seen h1 h2).1
        · exact ih rest _ _ (processPR_nodup since prLimit includeDrafts page prs seen h1 h2).1
            (processPR_nodup since prLimit includeDrafts page prs seen h1 h2).2

lemma fetchCommitsGo_nodup (since : Int) (cLimit : Nat) :
    ∀ (fuel : Nat) (pages : List (List PushEvent)) (commits : List CommitRecord)
      (seen : List String) (cache : List (String × CommitInfo))
      (responses : List (Option CommitData)),
      (commits.map CommitRecord.sha).Nodup →
      (∀ k ∈ commits.map CommitRecord.sha, k ∈ seen) →
      ((fetchRecentCommitsGo since cLimit fuel pages commits seen cache responses).map
        CommitRecord.sha).Nodup := by
  intro fuel
  induction fuel with
  | zero => intro pages commits seen cache responses h1 h2; exact h1
  | succ n ih =>
    intro pages commits seen cache responses h1 h2
    cases pages with
    | nil => exact h1
    | cons page rest =>
      simp only [fetchRecentCommitsGo]
      split
      · exact h1
      · split
        · exact (processPush_nodup since cLimit page commits seen cache responses h1 h2).1
        · exact ih rest _ _ _ _ (processPush_nodup since cLimit page commits seen cache responses h1 h2).1
            (processPush_nodup since cLimit page commits seen cache responses h1 h2).2

/-- C3: for every event sequence, no two display records produced in one
run share a deduplication key: PR records are keyed by canonical PR URL and
commit records by full commit SHA, and both commit paths consult the same
seen set before insertion. -/
theorem C3_dedup (since : Int) (prLimit : Nat) (includeDrafts : Bool)
    (eventMaxPages : Nat) (pages : List (List PREvent))
    (cSince : Int) (commitLimit : Nat) (cMaxPages : Nat)
    (cPages : List (List PushEvent)) (responses : List (Option CommitData)) :
    ((fetchRecentPRs since prLimit includeDrafts eventMaxPages pages).map PRRecord.url).Nodup ∧
    ((fetchRecentCommits cSince commitLimit cMaxPages cPages responses).map
      CommitRecord.sha).Nodup :=
  ⟨fetchPRGo_nodup since prLimit includeDrafts eventMaxPages pages [] [] (by simp) (by simp),
   fetchCommitsGo_nodup cSince commitLimit cMaxPages cPages [] [] [] responses (by simp) (by simp)⟩

/-- C8: an event whose timestamp is unparseable (`none`) or strictly before
the lookback cutoff contributes nothing: processing it is identical to
processing the remaining events, for both builders. -/
theorem C8_stale_skip (since : Int) (prLimit : Nat) (includeDrafts : Bool)
    (e : PREvent) (rest : List PREvent) (prs : List PRRecord) (seen : List String)
    (cSince : Int) (commitLimit : Nat) (pe : PushEvent) (crest : List PushEvent)
    (commits : List CommitRecord) (cseen : List String)
    (cache : List (String × CommitInfo)) (responses : List (Option CommitData))
    (hpr : e.created_at_ms = none ∨ ∃ d, e.created_at_ms = some d ∧ d < since)
    (hpe : pe.created_at_ms = none ∨ ∃ d, pe.created_at_ms = some d ∧ d < cSince) :
    processPREvents since prLimit includeDrafts (e :: rest) prs seen =
      processPREvents since prLimit includeDrafts rest prs seen ∧
    processPushEvents cSince commitLimit (pe :: crest) commits cseen cache responses =
      processPushEvents cSince commitLimit crest commits cseen cache responses := by
  constructor
  · simp only [processPREvents]
    split
    · rfl
    · rcases hpr with h | ⟨d, hd, hlt⟩
      · rw [h]
      · rw [hd]
        simp only [if_pos hlt]
  · simp only [processPushEvents]
    split
    · rfl
    · rcases hpe with h | ⟨d, hd, hlt⟩
      · rw [h]
      · rw [hd]
        simp only [if_pos hlt]

/-- C8 witness: a stale PR event and an unparseable push event are skipped. -/
theorem C8_stale_skip_witness :
    processPREvents 0 3 false
        [⟨"PullRequestEvent", "2000-01-01T00:00:00Z", some (-99), none, none⟩] [] [] =
      processPREvents 0 3 false [] [] [] ∧
    processPushEvents 0 3 [⟨"PushEvent", none, "x", some "o/r", none, none⟩] [] [] [] [] =
      processPushEvents 0 3 [] [] [] [] [] :=
  C8_stale_skip 0 3 false _ [] [] [] 0 3 _ [] [] [] [] []
    (Or.inr ⟨-99, rfl, by decide⟩) (Or.inl rfl)

/-- C10: a failed head-reference detail lookup consumes the response but
stores nothing in the cache and adds nothing to the seen set (the state and
remaining work equal those of skipping the event entirely); consequently a
later push event with the same head reference performs a fresh lookup and,
as the concrete second conjunct shows, can still produce a record for that
SHA. -/
theorem C10_failed_lookup (since : Int) (cLimit : Nat) (e : PushEvent)
    (rest : List PushEvent) (commits : List CommitRecord) (seen : List String)
    (cache : List (String × CommitInfo)) (responses : List (Option CommitData))
    (h : String) (d : Int)
    (htyp : e.typ = "PushEvent") (hms : e.created_at_ms = some d) (hfresh : ¬ d < since)
    (hrepo : jsTruthy e.repo_name = true)
    (hcommits : e.payload_commits = none ∨ e.payload_commits = some [])
    (hhead : e.payload_head = some h) (hne : h.isEmpty = false)
    (hseen : seen.contains h = false)
    (hcache : List.lookup (e.repo_name.getD "" ++ "@" ++ h) cache = none) :
    (processPushEvents since cLimit (e :: rest) commits seen cache (none :: responses) =
      processPushEvents since cLimit rest commits seen cache responses) ∧
    (fetchRecentCommits 0 3 1 [[c10Event, c10Event]] [none, some c10Data]).map
      CommitRecord.sha = ["abc1234def0"] := by
  constructor
  · have hnotmem : h ∉ seen := by simpa using hseen
    simp only [processPushEvents, hms]
    rw [if_neg (by simp [htyp]), if_neg hfresh, if_neg (by simpa using hrepo)]
    rcases hcommits with hc | hc <;>
      simp only [hc, hhead, fetchCommitDetails, hcache,
        if_neg (show ¬(h.isEmpty || seen.contains h) = true by simp [hne, hnotmem])]
  · decide

/-- C10 witness: the theorem at a concrete head-only event whose first
lookup fails and whose retry succeeds. -/
theorem C10_failed_lookup_witness :
    (processPushEvents 0 3 [c10Event] [] [] [] (none :: [some c10Data]) =
      processPushEvents 0 3 [] [] [] [] [some c10Data]) ∧
    (fetchRecentCommits 0 3 1 [[c10Event, c10Event]] [none, some c10Data]).map
      CommitRecord.sha = ["abc1234def0"] :=
  C10_failed_lookup 0 3 c10Event [] [] [] [] [some c10Data] "abc1234def0" 5
    rfl rfl (by decide) (by decide) (Or.inl rfl) rfl (by decide) (by decide) (by decide)

lemma startsWithL_iff (p : List Char) : ∀ l : List Char,
    startsWithL p l = true ↔ ∃ t, l = p ++ t := by
  induction p with
  | nil => intro l; simp [startsWithL]
  | cons a p ih =>
    intro l
    cases l with
    | nil => simp [startsWithL]
    | cons b t =>
      simp only [startsWithL, Bool.and_eq_true, beq_iff_eq, ih]
      constructor
      · rintro ⟨rfl, u, rfl⟩
        exact ⟨u, rfl⟩
      · rintro ⟨u, hu⟩
        injection hu with h1 h2
        exact ⟨h1.symm, u, h2⟩

lemma startsWithL_length_le {p l : List Char} (h : startsWithL p l = true) :
    p.length ≤ l.length := by
  obtain ⟨t, rfl⟩ := (startsWithL_iff p l).mp h
  simp

lemma startsWithL_append_iff (p a b : List Char) (hlen : p.length ≤ a.length) :
    startsWithL p (a ++ b) = true ↔ startsWithL p a = true := by
  simp only [startsWithL_iff]
  constructor
  · rintro ⟨t, ht⟩
    have h1 : a.take p.length = p := by
      have h2 : (a ++ b).take p.length = (p ++ t).take p.length := by rw [ht]
      rwa [List.take_append_of_le_length hlen, List.take_left] at h2
    have h3 := List.take_append_drop p.length a
    rw [h1] at h3
    exact ⟨a.drop p.length, h3.symm⟩
  · rintro ⟨t, rfl⟩
    exact ⟨t ++ b, by simp⟩

lemma startsWithL_of_take {p l : List Char} {n : Nat}
    (h : startsWithL p (l.take n) = true) : startsWithL p l = true := by
  obtain ⟨t, ht⟩ := (startsWithL_iff _ _).mp h
  exact (startsWithL_iff _ _).mpr
    ⟨t ++ l.drop n, by rw [← List.append_assoc, ← ht, List.take_append_drop]⟩

lemma startsWithL_take_eq {p a z : List Char} (h : startsWithL p (a ++ z) = true)
    (hlen : a.length ≤ p.length) : p.take a.length = a := by
  obtain ⟨t, ht⟩ := (startsWithL_iff _ _).mp h
  have h2 : (a ++ z).take a.length = (p ++ t).take a.length := by rw [ht]
  rwa [List.take_left, List.take_append_of_le_length hlen, eq_comm] at h2

lemma firstIdx_some (p : List Char) : ∀ (l : List Char) (i : Nat),
    firstIdx p l = some i →
    startsWithL p (l.drop i) = true ∧ ∀ j, j < i → startsWithL p (l.drop j) = false := by
  intro l
  induction l with
  | nil =>
    intro i h
    simp only [firstIdx] at h
    split at h
    · rename_i hsw
      cases h
      exact ⟨hsw, fun j hj => absurd hj (Nat.not_lt_zero j)⟩
    · cases h
  | cons c t ih =>
    intro i h
    simp only [firstIdx] at h
    split at h
    · rename_i hsw
      cases h
      exact ⟨hsw, fun j hj => absurd hj (Nat.not_lt_zero j)⟩
    · rename_i hsw
      rcases hft : firstIdx p t with _ | i'
      · rw [hft] at h; cases h
      · rw [hft] at h
        simp only [Option.map_some'] at h
        cases h
        obtain ⟨h1, h2⟩ := ih i' hft
        refine ⟨h1, ?_⟩
        intro j hj
        cases j with
        | zero => simpa using Bool.eq_false_iff.mpr hsw
        | succ j' => exact h2 j' (by omega)

lemma firstIdx_none (p : List Char) : ∀ l : List Char,
    firstIdx p l = none → ∀ j, startsWithL p (l.drop j) = false := by
  intro l
  induction l with
  | nil =>
    intro h j
    simp only [firstIdx] at h
    split at h
    · cases h
    · rename_i hsw
      simpa using Bool.eq_false_iff.mpr hsw
  | cons c t ih =>
    intro h j
    simp only [firstIdx] at h
    split at h
    · cases h
    · rename_i hsw
      rcases hft : firstIdx p t with _ | i'
      · cases j with
        | zero => simpa using Bool.eq_false_iff.mpr hsw
        | succ j' => exact ih hft j'
      · rw [hft] at h; cases h

lemma firstIdx_eq_some (p : List Char) : ∀ (l : List Char) (i : Nat),
    startsWithL p (l.drop i) = true →
    (∀ j, j < i → startsWithL p (l.drop j) = false) →
    firstIdx p l = some i := by
  intro l
  induction l with
  | nil =>
    intro i h1 h2
    cases i with
    | zero =>
      simp only [List.drop_nil] at h1
      simp [firstIdx, h1]
    | succ i' =>
      have := h2 0 (by omega)
      simp only [List.drop_nil] at h1 this
      rw [h1] at this
      cases this
  | cons c t ih =>
    intro i h1 h2
    cases i with
    | zero =>
      simp only [List.drop_zero] at h1
      simp [firstIdx, h1]
    | succ i' =>
      have h0 := h2 0 (by omega)
      simp only [List.drop_zero] at h0
      simp only [firstIdx, h0, Bool.false_eq_true, if_false]
      have := ih i' (by simpa using h1) (fun j hj => by simpa using h2 (j + 1) (by omega))
      rw [this]
      rfl

lemma firstIdx_le_length {p l : List Char} {i : Nat} (hp : p ≠ [])
    (h : firstIdx p l = some i) : i + p.length ≤ l.length := by
  obtain ⟨h1, _⟩ := firstIdx_some p l i h
  have hlen := startsWithL_length_le h1
  rw [List.length_drop] at hlen
  rcases le_or_lt i l.length with hle | hlt
  · omega
  · exfalso
    obtain ⟨t, ht⟩ := (startsWithL_iff _ _).mp h1
    rw [List.drop_eq_nil_of_le (by omega)] at ht
    cases p with
    | nil => exact hp rfl
    | cons a q => simp at ht

lemma mem_of_append_cons_eq {a z t p : List Char} {c : Char}
    (h : a ++ c :: z = p ++ t) (hlen : a.length < p.length) : c ∈ p := by
  have hd : (a ++ c :: z).drop a.length = (p ++ t).drop a.length := by rw [h]
  rw [List.drop_left, List.drop_append_eq_append_drop] at hd
  cases hp : p.drop a.length with
  | nil =>
    rw [hp] at hd
    have hlp := congrArg List.length hp
    simp only [List.length_drop, List.length_nil] at hlp
    omega
  | cons x xs =>
    rw [hp] at hd
    simp only [List.cons_append] at hd
    injection hd with h1 h2
    have hx : x ∈ p.drop a.length := by rw [hp]; exact List.mem_cons_self _ _
    exact h1 ▸ List.mem_of_mem_drop hx

lemma startTagPR_length : startTagPR.length = 25 := by decide

lemma endTagPR_length : endTagPR.length = 23 := by decide

lemma newline_not_mem_endTagPR : ('\n' : Char) ∉ endTagPR := by decide

lemma endTagPR_no_border :
    ∀ k, k < 23 → 0 < k → endTagPR.take k ≠ endTagPR.drop (23 - k) := by decide

lemma tag_cross : ∀ k, k < 25 → 2 < k → endTagPR.take (25 - k) ≠ startTagPR.drop k := by
  decide

lemma startTag_no_lt_inside :
    ∀ k, k < 25 → 0 < k → ¬ startsWithL ['<'] (startTagPR.drop k) = true := by decide

lemma endTagPR_head_lt : startsWithL ['<'] endTagPR = true := by decide

lemma end_ge_start_add (content : List Char) (s e : Nat)
    (hs : startsWithL startTagPR (content.drop s) = true)
    (he : startsWithL endTagPR (content.drop e) = true)
    (hlt : s < e) : s + 25 ≤ e := by
  by_contra hcon
  push_neg at hcon
  obtain ⟨t, ht⟩ := (startsWithL_iff _ _).mp hs
  have hde : content.drop e = startTagPR.drop (e - s) ++ t := by
    have h1 : content.drop e = (content.drop s).drop (e - s) := by
      rw [List.drop_drop]; congr 1; omega
    rw [h1, ht, List.drop_append_eq_append_drop]
    have h25 : e - s - startTagPR.length = 0 := by rw [startTagPR_length]; omega
    rw [h25, List.drop_zero]
  have h2 : startsWithL ['<'] (content.drop e) = true := by
    obtain ⟨u, hu⟩ := (startsWithL_iff _ _).mp he
    rw [hu]
    exact (startsWithL_append_iff _ _ _ (by decide)).mpr endTagPR_head_lt
  rw [hde] at h2
  have h3 : startsWithL ['<'] (startTagPR.drop (e - s)) = true := by
    rwa [startsWithL_append_iff _ _ _
      (by simp only [List.length_singleton, List.length_drop, startTagPR_length]; omega)] at h2
  exact startTag_no_lt_inside (e - s) (by omega) (by omega) h3

lemma next_drop_le (content markup : List Char) (s e j : Nat) (hj : j ≤ s + 25)
    (hsle : s + 25 ≤ content.length) :
    (content.take (s + 25) ++ '\n' :: (markup ++ '\n' :: content.drop e)).drop j =
      (content.take (s + 25)).drop j ++ '\n' :: (markup ++ '\n' :: content.drop e) := by
  rw [List.drop_append_eq_append_drop]
  have h0 : j - (content.take (s + 25)).length = 0 := by
    rw [List.length_take]; omega
  rw [h0, List.drop_zero]

lemma next_firstIdx_start (content markup : List Char) (s e : Nat)
    (hfs : firstIdx startTagPR content = some s) :
    firstIdx startTagPR
      (content.take (s + 25) ++ '\n' :: (markup ++ '\n' :: content.drop e)) = some s := by
  obtain ⟨hocc_s, hmin_s⟩ := firstIdx_some _ _ _ hfs
  have hsle : s + 25 ≤ content.length := by
    have := firstIdx_le_length (p := startTagPR) (by decide) hfs
    rw [startTagPR_length] at this; omega
  have hlenB : (content.take (s + 25)).length = s + 25 := by
    rw [List.length_take]; omega
  have hBs : (content.take (s + 25)).drop s = startTagPR := by
    rw [List.drop_take]
    obtain ⟨t, ht⟩ := (startsWithL_iff _ _).mp hocc_s
    rw [ht]
    have h25 : s + 25 - s = 25 := by omega
    rw [h25, show (25 : Nat) = startTagPR.length from startTagPR_length.symm, List.take_left]
  apply firstIdx_eq_some
  · rw [next_drop_le content markup s e s (by omega) hsle, hBs]
    exact (startsWithL_iff _ _).mpr ⟨_, rfl⟩
  · intro j hj
    apply Bool.eq_false_iff.mpr
    intro hsw
    rw [next_drop_le content markup s e j (by omega) hsle] at hsw
    have hlen : startTagPR.length ≤ ((content.take (s + 25)).drop j).length := by
      rw [List.length_drop, hlenB, startTagPR_length]; omega
    have h1 : startsWithL startTagPR ((content.take (s + 25)).drop j) = true :=
      (startsWithL_append_iff _ _ _ hlen).mp hsw
    rw [List.drop_take] at h1
    have h2 : startsWithL startTagPR (content.drop j) = true := startsWithL_of_take h1
    simp [hmin_s j hj] at h2

lemma next_firstIdx_end (content markup : List Char) (s e : Nat)
    (hfs : firstIdx startTagPR content = some s)
    (hfe : firstIdx endTagPR content = some e)
    (hlt : s < e)
    (hm : firstIdx endTagPR markup = none) :
    firstIdx endTagPR (content.take (s + 25) ++ '\n' :: (markup ++ '\n' :: content.drop e)) =
      some (s + 27 + markup.length) := by
  obtain ⟨hocc_s, hmin_s⟩ := firstIdx_some _ _ _ hfs
  obtain ⟨hocc_e, hmin_e⟩ := firstIdx_some _ _ _ hfe
  have hgap : s + 25 ≤ e := end_ge_start_add content s e hocc_s hocc_e hlt
  have hsle : s + 25 ≤ content.length := by
    have := firstIdx_le_length (p := startTagPR) (by decide) hfs
    rw [startTagPR_length] at this; omega
  have hlenB : (content.take (s + 25)).length = s + 25 := by
    rw [List.length_take]; omega
  have hsplit : content.take (s + 25) ++ '\n' :: (markup ++ '\n' :: content.drop e) =
      (content.take (s + 25) ++ '\n' :: (markup ++ ['\n'])) ++ content.drop e := by
    simp
  have hlenBM : (content.take (s + 25) ++ '\n' :: (markup ++ ['\n'])).length =
      s + 27 + markup.length := by
    simp only [List.length_append, List.length_cons, List.length_nil, hlenB]
    omega
  apply firstIdx_eq_some
  · rw [hsplit]
    have hde : ((content.take (s + 25) ++ '\n' :: (markup ++ ['\n'])) ++
        content.drop e).drop (s + 27 + markup.length) = content.drop e := by
      rw [← hlenBM, List.drop_left]
    rw [hde]
    exact hocc_e
  · intro j hj
    apply Bool.eq_false_iff.mpr
    intro hsw
    rcases lt_or_ge j (s + 25) with hregion | hregion
    · rcases le_or_lt (j + 23) (s + 25) with hin | hstrad
      · -- occurrence entirely inside the preserved prefix
        rw [next_drop_le content markup s e j (by omega) hsle] at hsw
        have hlen : endTagPR.length ≤ ((content.take (s + 25)).drop j).length := by
          rw [List.length_drop, hlenB, endTagPR_length]; omega
        have h1 : startsWithL endTagPR ((content.take (s + 25)).drop j) = true :=
          (startsWithL_append_iff _ _ _ hlen).mp hsw
        rw [List.drop_take] at h1
        have h2 : startsWithL endTagPR (content.drop j) = true := startsWithL_of_take h1
        simp [hmin_e j (by omega)] at h2
      · -- occurrence straddling the start-marker tail and the spliced interior
        rw [next_drop_le content markup s e j (by omega) hsle] at hsw
        have hBj : (content.take (s + 25)).drop j = startTagPR.drop (j - s) := by
          rw [List.drop_take]
          obtain ⟨t, ht⟩ := (startsWithL_iff _ _).mp hocc_s
          have hcdj : content.drop j = startTagPR.drop (j - s) ++ t := by
            have h1 : content.drop j = (content.drop s).drop (j - s) := by
              rw [List.drop_drop]; congr 1; omega
            rw [h1, ht, List.drop_append_eq_append_drop]
            have h0 : j - s - startTagPR.length = 0 := by rw [startTagPR_length]; omega
            rw [h0, List.drop_zero]
          rw [hcdj]
          have hlend : (startTagPR.drop (j - s)).length = s + 25 - j := by
            rw [List.length_drop, startTagPR_length]; omega
          rw [← hlend, List.take_left]
        rw [hBj] at hsw
        have htake := startsWithL_take_eq hsw
          (by rw [List.length_drop, startTagPR_length, endTagPR_length]; omega)
        have hlend : (startTagPR.drop (j - s)).length = 25 - (j - s) := by
          rw [List.length_drop, startTagPR_length]
        rw [hlend] at htake
        exact tag_cross (j - s) (by omega) (by omega) htake
    · -- occurrence starting inside the spliced interior
      have hk : j - (s + 25) < markup.length + 2 := by omega
      have hdropc : (content.take (s + 25) ++ '\n' :: (markup ++ '\n' :: content.drop e)).drop j =
          ('\n' :: (markup ++ ['\n'])).drop (j - (s + 25)) ++ content.drop e := by
        rw [hsplit, List.drop_append_eq_append_drop]
        have h0 : j - (content.take (s + 25) ++ '\n' :: (markup ++ ['\n'])).length = 0 := by
          rw [hlenBM]; omega
        rw [h0, List.drop_zero]
        congr 1
        rw [List.drop_append_eq_append_drop,
          List.drop_eq_nil_of_le (by rw [hlenB]; omega), List.nil_append, hlenB]
      rw [hdropc] at hsw
      have hka : (('\n' :: (markup ++ ['\n'])).drop (j - (s + 25))).length =
          markup.length + 2 - (j - (s + 25)) := by
        simp only [List.length_drop, List.length_cons, List.length_append,
          List.length_nil]
      rcases le_or_lt 23 (('\n' :: (markup ++ ['\n'])).drop (j - (s + 25))).length with
        hbig | hsmall
      · have h1 : startsWithL endTagPR (('\n' :: (markup ++ ['\n'])).drop (j - (s + 25))) =
            true := (startsWithL_append_iff _ _ _ (by rw [endTagPR_length]; omega)).mp hsw
        rcases Nat.eq_zero_or_pos (j - (s + 25)) with hk0 | hkpos
        · obtain ⟨t, ht⟩ := (startsWithL_iff _ _).mp h1
          rw [hk0, List.drop_zero] at ht
          have hnl : ('\n' : Char) ∈ endTagPR :=
            mem_of_append_cons_eq (a := ([] : List Char)) (by simpa using ht)
              (by rw [endTagPR_length]; simp)
          exact newline_not_mem_endTagPR hnl
        · have haa : ('\n' :: (markup ++ ['\n'])).drop (j - (s + 25)) =
              markup.drop (j - (s + 25) - 1) ++ ['\n'] := by
            rcases Nat.exists_eq_add_of_lt hkpos with ⟨k', hk'⟩
            have hkk : j - (s + 25) = k' + 1 := by omega
            rw [hkk]
            simp only [List.drop_succ_cons]
            rw [List.drop_append_eq_append_drop]
            have h0 : k' - markup.length = 0 := by omega
            rw [h0, List.drop_zero]
            simp
          rw [haa] at h1
          rcases le_or_lt 23 (markup.drop (j - (s + 25) - 1)).length with hmb | hms
          · have h2 : startsWithL endTagPR (markup.drop (j - (s + 25) - 1)) = true :=
              (startsWithL_append_iff _ _ _ (by rw [endTagPR_length]; omega)).mp h1
            simp [firstIdx_none endTagPR markup hm (j - (s + 25) - 1)] at h2
          · obtain ⟨t, ht⟩ := (startsWithL_iff _ _).mp h1
            have hnl : ('\n' : Char) ∈ endTagPR :=
              mem_of_append_cons_eq (a := markup.drop (j - (s + 25) - 1))
                (by simpa using ht) (by rw [endTagPR_length]; omega)
            exact newline_not_mem_endTagPR hnl
      · -- occurrence straddling into the preserved suffix: a border of the end marker
        have hapos : 0 < (('\n' :: (markup ++ ['\n'])).drop (j - (s + 25))).length := by
          rw [hka]; omega
        obtain ⟨t, ht⟩ := (startsWithL_iff _ _).mp hsw
        obtain ⟨u, hu⟩ := (startsWithL_iff _ _).mp hocc_e
        rw [hu] at ht
        have hd : endTagPR ++ u =
            endTagPR.drop (('\n' :: (markup ++ ['\n'])).drop (j - (s + 25))).length ++ t := by
          have h1 := congrArg
            (List.drop (('\n' :: (markup ++ ['\n'])).drop (j - (s + 25))).length) ht
          rw [List.drop_left, List.drop_append_eq_append_drop] at h1
          have h0 : (('\n' :: (markup ++ ['\n'])).drop (j - (s + 25))).length -
              endTagPR.length = 0 := by rw [endTagPR_length]; omega
          rw [h0, List.drop_zero] at h1
          exact h1
        have htk := congrArg
          (List.take (23 - (('\n' :: (markup ++ ['\n'])).drop (j - (s + 25))).length)) hd
        rw [List.take_append_of_le_length (by rw [endTagPR_length]; omega)] at htk
        have hlend : (endTagPR.drop
            (('\n' :: (markup ++ ['\n'])).drop (j - (s + 25))).length).length =
            23 - (('\n' :: (markup ++ ['\n'])).drop (j - (s + 25))).length := by
          rw [List.length_drop, endTagPR_length]
        rw [← hlend, List.take_left, hlend] at htk
        have hb := endTagPR_no_border
          (23 - (('\n' :: (markup ++ ['\n'])).drop (j - (s + 25))).length)
          (by omega) (by omega)
        rw [show 23 - (23 - (('\n' :: (markup ++ ['\n'])).drop (j - (s + 25))).length) =
          (('\n' :: (markup ++ ['\n'])).drop (j - (s + 25))).length from by omega] at hb
        exact hb htk

lemma spliceUpdate_error (startTag endTag : List Char) (errMsg : String)
    (content markup : List Char)
    (h : firstIdx startTag content = none ∨ firstIdx endTag content = none ∨
      ∃ s e, firstIdx startTag content = some s ∧ firstIdx endTag content = some e ∧ e ≤ s) :
    spliceUpdate startTag endTag errMsg content markup = .error errMsg := by
  rcases h with h | h | ⟨s, e, hs, he, hle⟩
  · rcases hfe : firstIdx endTag content with _ | e <;> simp [spliceUpdate, h, hfe]
  · rcases hfs : firstIdx startTag content with _ | s <;> simp [spliceUpdate, h, hfs]
  · simp [spliceUpdate, hs, he, hle]

/-- C6: when either marker is absent or the end marker occurs at or before
the start marker, both splicers fail with their "markers not found" error
(the error return carries no new document, so nothing is written). -/
theorem C6_markers (content markup ccontent cmarkup : List Char)
    (h1 : firstIdx startTagPR content = none ∨ firstIdx endTagPR content = none ∨
      ∃ s e, firstIdx startTagPR content = some s ∧ firstIdx endTagPR content = some e ∧
        e ≤ s)
    (h2 : firstIdx startTagCommits ccontent = none ∨
      firstIdx endTagCommits ccontent = none ∨
      ∃ s e, firstIdx startTagCommits ccontent = some s ∧
        firstIdx endTagCommits ccontent = some e ∧ e ≤ s) :
    updateReadmePR content markup = .error "Recent PR markers not found in README." ∧
    updateReadmeCommits ccontent cmarkup =
      .error "Recent commit markers not found in README." :=
  ⟨spliceUpdate_error _ _ _ content markup h1,
   spliceUpdate_error _ _ _ ccontent cmarkup h2⟩

/-- C6 witness: a document holding only the start marker fails, for both
marker pairs. -/
theorem C6_markers_witness :
    updateReadmePR startTagPR [] = .error "Recent PR markers not found in README." ∧
    updateReadmeCommits startTagCommits [] =
      .error "Recent commit markers not found in README." :=
  C6_markers startTagPR [] startTagCommits []
    (Or.inr (Or.inl (by decide))) (Or.inr (Or.inl (by decide)))

/-- C5 (amended): the splice is idempotent for every markup string that
does not contain the end marker: if one application succeeds with result
`next`, applying the splice to `next` returns `next` itself with the
no-write flag (the no-op short-circuit fires). -/
theorem C5_idempotent (content markup next : List Char) (w : Bool)
    (hok : updateReadmePR content markup = .ok (next, w))
    (hnoend : containsSub endTagPR markup = false) :
    updateReadmePR next markup = .ok (next, false) := by
  have hm : firstIdx endTagPR markup = none := by
    rcases h : firstIdx endTagPR markup with _ | v
    · rfl
    · have := hnoend
      simp [containsSub, h] at this
  rcases hfs : firstIdx startTagPR content with _ | s
  · simp [updateReadmePR, spliceUpdate, hfs] at hok
  rcases hfe : firstIdx endTagPR content with _ | e
  · simp [updateReadmePR, spliceUpdate, hfs, hfe] at hok
  simp only [updateReadmePR, spliceUpdate, hfs, hfe] at hok
  by_cases hle : e ≤ s
  · rw [if_pos hle] at hok
    simp at hok
  rw [if_neg hle] at hok
  have hlt : s < e := by omega
  rw [startTagPR_length] at hok
  have hnext : next = content.take (s + 25) ++ '\n' :: (markup ++ '\n' :: content.drop e) := by
    split at hok
    · rename_i hbeq
      injection hok with hp
      injection hp with hp1 hp2
      have hbeq' : content.take (s + 25) ++ '\n' :: (markup ++ '\n' :: content.drop e) =
          content := by simpa using hbeq
      rw [← hp1, hbeq']
    · injection hok with hp
      injection hp with hp1 hp2
      exact hp1.symm
  have hsle : s + 25 ≤ content.length := by
    have := firstIdx_le_length (p := startTagPR) (by decide) hfs
    rw [startTagPR_length] at this; omega
  have hlenB : (content.take (s + 25)).length = s + 25 := by rw [List.length_take]; omega
  have hlenBM : (content.take (s + 25) ++ '\n' :: (markup ++ ['\n'])).length =
      s + 27 + markup.length := by
    simp only [List.length_append, List.length_cons, List.length_nil, hlenB]; omega
  have hsplit : content.take (s + 25) ++ '\n' :: (markup ++ '\n' :: content.drop e) =
      (content.take (s + 25) ++ '\n' :: (markup ++ ['\n'])) ++ content.drop e := by simp
  have hA := next_firstIdx_start content markup s e hfs
  have hB := next_firstIdx_end content markup s e hfs hfe hlt hm
  simp only [updateReadmePR, spliceUpdate, hnext, hA, hB]
  rw [if_neg (show ¬ s + 27 + markup.length ≤ s from by omega)]
  rw [startTagPR_length]
  have htake : (content.take (s + 25) ++ '\n' ::
      (markup ++ '\n' :: content.drop e)).take (s + 25) = content.take (s + 25) :=
    List.take_left' hlenB
  have hdrop : (content.take (s + 25) ++ '\n' ::
      (markup ++ '\n' :: content.drop e)).drop (s + 27 + markup.length) =
      content.drop e := by
    rw [hsplit]; exact List.drop_left' hlenBM
  rw [htake, hdrop]
  simp

/-- C5: the claim as stated is false on the code: when the rendered markup
itself contains the end marker, the second application finds that embedded
marker first, produces a longer document, and performs a write. -/
theorem C5_counterexample :
    updateReadmePR (startTagPR ++ endTagPR) endTagPR =
      .ok (startTagPR ++ '\n' :: (endTagPR ++ '\n' :: endTagPR), true) ∧
    updateReadmePR (startTagPR ++ '\n' :: (endTagPR ++ '\n' :: endTagPR)) endTagPR =
      .ok (startTagPR ++ '\n' :: (endTagPR ++ '\n' ::
        (endTagPR ++ '\n' :: endTagPR)), true) ∧
    startTagPR ++ '\n' :: (endTagPR ++ '\n' :: (endTagPR ++ '\n' :: endTagPR)) ≠
      startTagPR ++ '\n' :: (endTagPR ++ '\n' :: endTagPR) := by
  refine ⟨rfl, rfl, by decide⟩

/-- C5 witness: a second application on a freshly spliced document is a
no-op. -/
theorem C5_idempotent_witness :
    updateReadmePR (startTagPR ++ '\n' :: (['a'] ++ '\n' :: endTagPR)) ['a'] =
      .ok (startTagPR ++ '\n' :: (['a'] ++ '\n' :: endTagPR), false) :=
  C5_idempotent (startTagPR ++ endTagPR) ['a'] _ true rfl (by decide)

/-- C7: the splice rewrites only the interior between the markers: the
prefix up to the end of the start marker is unchanged, and the suffix from
the start of the end marker onward reappears unchanged at the end of the
output document. -/
theorem C7_frame (content markup next : List Char) (w : Bool) (s e : Nat)
    (hfs : firstIdx startTagPR content = some s)
    (hfe : firstIdx endTagPR content = some e)
    (hok : updateReadmePR content markup = .ok (next, w)) :
    next.take (s + startTagPR.length) = content.take (s + startTagPR.length) ∧
    next.drop (next.length - (content.length - e)) = content.drop e := by
  simp only [updateReadmePR, spliceUpdate, hfs, hfe] at hok
  by_cases hle : e ≤ s
  · rw [if_pos hle] at hok
    simp at hok
  rw [if_neg hle] at hok
  have hlt : s < e := by omega
  rw [startTagPR_length] at hok
  have hnext : next = content.take (s + 25) ++ '\n' :: (markup ++ '\n' :: content.drop e) := by
    split at hok
    · rename_i hbeq
      injection hok with hp
      injection hp with hp1 hp2
      have hbeq' : content.take (s + 25) ++ '\n' :: (markup ++ '\n' :: content.drop e) =
          content := by simpa using hbeq
      rw [← hp1, hbeq']
    · injection hok with hp
      injection hp with hp1 hp2
      exact hp1.symm
  have hsle : s + 25 ≤ content.length := by
    have := firstIdx_le_length (p := startTagPR) (by decide) hfs
    rw [startTagPR_length] at this; omega
  have hele : e + 23 ≤ content.length := by
    have := firstIdx_le_length (p := endTagPR) (by decide) hfe
    rw [endTagPR_length] at this; omega
  have hlenB : (content.take (s + 25)).length = s + 25 := by rw [List.length_take]; omega
  have hlenBM : (content.take (s + 25) ++ '\n' :: (markup ++ ['\n'])).length =
      s + 27 + markup.length := by
    simp only [List.length_append, List.length_cons, List.length_nil, hlenB]; omega
  have hsplit : content.take (s + 25) ++ '\n' :: (markup ++ '\n' :: content.drop e) =
      (content.take (s + 25) ++ '\n' :: (markup ++ ['\n'])) ++ content.drop e := by simp
  have hlenN : (content.take (s + 25) ++ '\n' :: (markup ++ '\n' :: content.drop e)).length =
      s + 27 + markup.length + (content.length - e) := by
    rw [hsplit, List.length_append, hlenBM, List.length_drop]
  constructor
  · rw [hnext, startTagPR_length]
    exact List.take_left' hlenB
  · rw [hnext, hlenN]
    have harith : s + 27 + markup.length + (content.length - e) - (content.length - e) =
        s + 27 + markup.length := by omega
    rw [harith, hsplit]
    exact List.drop_left' hlenBM

/-- C7 witness: the frame equalities at a concrete document. -/
theorem C7_frame_witness :
    ((startTagPR ++ '\n' :: (['a'] ++ '\n' :: endTagPR)).take (0 + startTagPR.length) =
      (startTagPR ++ endTagPR).take (0 + startTagPR.length)) ∧
    ((startTagPR ++ '\n' :: (['a'] ++ '\n' :: endTagPR)).drop
        ((startTagPR ++ '\n' :: (['a'] ++ '\n' :: endTagPR)).length -
          ((startTagPR ++ endTagPR).length - 25)) =
      (startTagPR ++ endTagPR).drop 25) :=
  C7_frame (startTagPR ++ endTagPR) ['a'] _ true 0 25 (by decide) (by decide) rfl

/-- Per-entry lower bound on a rendered percentage label:
`200 * size + 1 ≤ 2 * total * label + total` whenever the total is positive. -/
lemma jsPercent_bound (s t : Nat) (ht : 0 < t) :
    200 * s + 1 ≤ 2 * t * jsPercent s t + t := by
  have h2t : 0 < 2 * t := by omega
  have hdm := Nat.div_add_mod (200 * s + t) (2 * t)
  have hmod := Nat.mod_lt (200 * s + t) h2t
  have hle : 2 * t * ((200 * s + t) / (2 * t)) ≤ 2 * t * jsPercent s t :=
    Nat.mul_le_mul_left _ (le_max_right _ _)
  obtain ⟨X, hX⟩ : ∃ X, 2 * t * ((200 * s + t) / (2 * t)) = X := ⟨_, rfl⟩
  obtain ⟨Y, hY⟩ : ∃ Y, 2 * t * jsPercent s t = Y := ⟨_, rfl⟩
  obtain ⟨M, hM⟩ : ∃ M, (200 * s + t) % (2 * t) = M := ⟨_, rfl⟩
  rw [hX, hM] at hdm
  rw [hM] at hmod
  rw [hX, hY] at hle
  rw [hY]
  omega

/-- Summed form of `jsPercent_bound` over a list of entries. -/
lemma jsPercent_sum_bound (t : Nat) (ht : 0 < t) : ∀ l : List LangEntry,
    200 * (l.map LangEntry.size).sum + l.length ≤
      2 * t * (l.map (fun e => jsPercent e.size t)).sum + l.length * t
  | [] => by simp
  | a :: l => by
    have ha := jsPercent_bound a.size t ht
    have hl := jsPercent_sum_bound t ht l
    simp only [List.map_cons, List.sum_cons, List.length_cons]
    obtain ⟨A, hA⟩ : ∃ A, 2 * t * jsPercent a.size t = A := ⟨_, rfl⟩
    obtain ⟨B, hB⟩ : ∃ B, 2 * t * (l.map (fun e => jsPercent e.size t)).sum = B := ⟨_, rfl⟩
    obtain ⟨L, hL⟩ : ∃ L, l.length * t = L := ⟨_, rfl⟩
    rw [Nat.mul_add, Nat.mul_add, hA, hB, Nat.add_mul, hL]
    rw [hA] at ha
    rw [hB, hL] at hl
    omega

/-- `entriesTotal` is the plain sum of the sizes. -/
lemma entriesTotal_eq (l : List LangEntry) :
    entriesTotal l = (l.map LangEntry.size).sum := by
  have h : ∀ (l : List LangEntry) (n : Nat),
      l.foldl (fun sum lang => sum + lang.size) n = n + (l.map LangEntry.size).sum := by
    intro l
    induction l with
    | nil => simp
    | cons a l ih => intro n; simp [ih, Nat.add_assoc]
  simpa using h l 0

/-- C1: the claim as stated is false on the code: three languages of one
byte each give three labels of `max(1, round(33.33…)) = 33`, which sum to
99 < 100 although the aggregate is non-empty with positive displayed total. -/
theorem C1_counterexample :
    0 < entriesTotal (buildSvgEntries 6 (fetchLanguagesMap
      [⟨some [⟨some 1, some "A", none⟩, ⟨some 1, some "B", none⟩,
              ⟨some 1, some "C", none⟩]⟩])) ∧
    ¬ 100 ≤ (percentLabels 6 (fetchLanguagesMap
      [⟨some [⟨some 1, some "A", none⟩, ⟨some 1, some "B", none⟩,
              ⟨some 1, some "C", none⟩]⟩])).sum := by
  decide

/-- C1 (amended): for every language aggregate whose displayed entries have
a positive total, the rendered percentage labels (each floored at 1%) sum to
at least `100 − ⌊n/2⌋` where `n` is the number of displayed entries; the
per-entry floor keeps them near 100 but round-half-up can lose up to half a
point per entry, so the sum can dip slightly below 100. -/
theorem C1_percentLabels_sum (topLanguagesLimit : Nat)
    (m : List (String × LangInfo))
    (h : 0 < entriesTotal (buildSvgEntries topLanguagesLimit m)) :
    100 ≤ (percentLabels topLanguagesLimit m).sum +
      (buildSvgEntries topLanguagesLimit m).length / 2 := by
  have hmain : ∀ l : List LangEntry, 0 < entriesTotal l →
      100 ≤ (l.map (fun e => jsPercent e.size (entriesTotal l))).sum + l.length / 2 := by
    intro l ht
    have hkey := jsPercent_sum_bound (entriesTotal l) ht l
    rw [← entriesTotal_eq] at hkey
    have hn : 1 ≤ l.length := by
      cases l with
      | nil => simp [entriesTotal] at ht
      | cons a l => simp
    obtain ⟨P, hP⟩ : ∃ P, (l.map (fun e => jsPercent e.size (entriesTotal l))).sum = P :=
      ⟨_, rfl⟩
    rw [hP] at hkey ⊢
    have hmul : 200 * entriesTotal l < (2 * P + l.length) * entriesTotal l := by
      have : (2 * P + l.length) * entriesTotal l = 2 * entriesTotal l * P + l.length * entriesTotal l := by
        ring
      omega
    have h200 : 200 < 2 * P + l.length := Nat.lt_of_mul_lt_mul_right hmul
    omega
  have := hmain (buildSvgEntries topLanguagesLimit m) h
  simpa [percentLabels] using this

/-- C1 witness: a single displayed language is labelled 100%. -/
theorem C1_percentLabels_sum_witness :
    100 ≤ (percentLabels 6 [("A", ⟨1, "#58a6ff"⟩)]).sum +
      (buildSvgEntries 6 [("A", ⟨1, "#58a6ff"⟩)]).length / 2 :=
  C1_percentLabels_sum 6 [("A", ⟨1, "#58a6ff"⟩)] (by decide)

/-- C2: status derivation is total and prioritized: a truthy `merged_at`
gives "Merged" regardless of the other flags; otherwise state "closed"
gives "Closed"; otherwise a set draft flag gives "Draft"; otherwise
"Open". -/
theorem C2_formatStatus (pr : PullRequest) :
    (jsTruthy pr.merged_at = true → formatStatus pr = "Merged") ∧
    (jsTruthy pr.merged_at = false → pr.state = "closed" →
      formatStatus pr = "Closed") ∧
    (jsTruthy pr.merged_at = false → pr.state ≠ "closed" → pr.draft = true →
      formatStatus pr = "Draft") ∧
    (jsTruthy pr.merged_at = false → pr.state ≠ "closed" → pr.draft = false →
      formatStatus pr = "Open") := by
  refine ⟨?_, ?_, ?_, ?_⟩ <;> intros <;> simp_all [formatStatus]

/-- C2 witness: the four priority branches at concrete payloads (a merged
draft in state "closed" still reads "Merged", and so on down the chain). -/
theorem C2_formatStatus_witness :
    formatStatus ⟨some "u", none, "closed", true, some "2024-01-01", none,
      none, none, none, none, none⟩ = "Merged" ∧
    formatStatus ⟨some "u", none, "closed", true, none, none,
      none, none, none, none, none⟩ = "Closed" ∧
    formatStatus ⟨some "u", none, "open", true, none, none,
      none, none, none, none, none⟩ = "Draft" ∧
    formatStatus ⟨some "u", none, "open", false, none, none,
      none, none, none, none, none⟩ = "Open" :=
  ⟨(C2_formatStatus _).1 (by decide),
   (C2_formatStatus _).2.1 (by decide) (by decide),
   (C2_formatStatus _).2.2.1 (by decide) (by decide) (by decide),
   (C2_formatStatus _).2.2.2 (by decide) (by decide) (by decide)⟩

/-- C9: aggregating `{A:80,B:20}` and `{A:20,C:20}` merges to
`{A:100,B:20,C:20}` (first-seen colors kept), and the top-2 render keeps A
and the encounter-order tie-winner B, excluding C. -/
theorem C9_scenario :
    fetchLanguagesMap
        [⟨some [⟨some 80, some "A", some "#a1"⟩, ⟨some 20, some "B", some "#b2"⟩]⟩,
         ⟨some [⟨some 20, some "A", some "#a1"⟩, ⟨some 20, some "C", some "#c3"⟩]⟩] =
      [("A", ⟨100, "#a1"⟩), ("B", ⟨20, "#b2"⟩), ("C", ⟨20, "#c3"⟩)] ∧
    (buildSvgEntries 2 (fetchLanguagesMap
        [⟨some [⟨some 80, some "A", some "#a1"⟩, ⟨some 20, some "B", some "#b2"⟩]⟩,
         ⟨some [⟨some 20, some "A", some "#a1"⟩, ⟨some 20, some "C", some "#c3"⟩]⟩])).map
        LangEntry.name = ["A", "B"] := by
  decide
